import Mathlib

set_option maxRecDepth 1000000

/-!
Verification of the holopy centerfinder module (holopy/process/centerfinder.py).

The source pipeline is:
  image_gradient : Sobel gradients of the image (scipy.ndimage.sobel, reflect
    boundary), with the column-direction gradient negated;
  hough : a Hough-style voting transform over pixels whose gradient magnitude
    exceeds scale * max magnitude, followed by the accumulator argmax and a
    weighted-average refinement over a hard-coded 21 x 21 window.

Machine floats are modelled by rationals.  Where the source's float semantics
is load-bearing (division by a zero gradient component produces an IEEE
infinity or NaN which is then filtered out by the range tests) we model the
extended values explicitly with the FVal type below, so that the behaviour of
the voting loop at gx = 0 or slope = 0 is derived, not assumed.

Grids are lists of rows of rationals; out-of-range reads use the getD default
(the source never reads out of range on the inputs covered by the claims).
-/

namespace Centerfinder

/-- Rounding half to even, the behaviour of numpy.around on floats. -/
def roundHE (q : ℚ) : ℤ :=
  let f := ⌊q⌋
  let frac := q - f
  if frac < 1/2 then f
  else if 1/2 < frac then f + 1
  else if Even f then f else f + 1

/-- Extended value: a finite rational, or one of the IEEE special values
produced by the source's unguarded float divisions. -/
inductive FVal where
  | fin (q : ℚ)
  | pinf
  | ninf
  | nan
deriving DecidableEq, Repr

/-- Float division a / b as numpy performs it elementwise: division by zero
yields a signed infinity (or NaN for 0 / 0) instead of faulting.  The sign of
a floating zero denominator is collapsed to +0; the claims only depend on the
result being non-finite. -/
def fdivq (a b : ℚ) : FVal :=
  if b = 0 then (if a = 0 then FVal.nan else if 0 < a then FVal.pinf else FVal.ninf)
  else FVal.fin (a / b)

/-- Multiplication of an extended value by a finite scalar (IEEE rules:
inf * 0 = NaN). -/
def fmulq : FVal → ℚ → FVal
  | FVal.fin q, k => FVal.fin (q * k)
  | FVal.pinf, k => if 0 < k then FVal.pinf else if k < 0 then FVal.ninf else FVal.nan
  | FVal.ninf, k => if 0 < k then FVal.ninf else if k < 0 then FVal.pinf else FVal.nan
  | FVal.nan, _ => FVal.nan

/-- Subtraction of an extended value from a finite scalar. -/
def fsubq (k : ℚ) : FVal → FVal
  | FVal.fin q => FVal.fin (k - q)
  | FVal.pinf => FVal.ninf
  | FVal.ninf => FVal.pinf
  | FVal.nan => FVal.nan

/-- Reciprocal of an extended value: 1 / 0.0 is an infinity (the sign of a
floating zero is collapsed to +, which the claims never observe since every
infinite line position is filtered out), 1 / inf is 0. -/
def finv : FVal → FVal
  | FVal.fin q => if q = 0 then FVal.pinf else FVal.fin (1 / q)
  | FVal.pinf => FVal.fin 0
  | FVal.ninf => FVal.fin 0
  | FVal.nan => FVal.nan

/-- The source's branch test abs(slope) > 1 under IEEE comparison rules:
true for infinities, false for NaN. -/
def fabsGtOne : FVal → Bool
  | FVal.fin q => decide (1 < |q|)
  | FVal.pinf => true
  | FVal.ninf => true
  | FVal.nan => false

/-- Grid entry read with default 0 (row r, column c). -/
def gridGet (g : List (List ℚ)) (r c : ℕ) : ℚ := (g.getD r []).getD c 0

/-- shape[0] of a grid. -/
def numRows (g : List (List ℚ)) : ℕ := g.length

/-- shape[1] of a grid. -/
def numCols (g : List (List ℚ)) : ℕ := (g.headD []).length

/-- All pixel coordinates of an R x C grid in row-major order, the order in
which scipy.where enumerates them. -/
def allIdx (R C : ℕ) : List (ℕ × ℕ) :=
  ((List.range R).map (fun r => (List.range C).map (fun c => (r, c)))).flatten

/-- Squared gradient magnitude at a pixel. -/
def magSq (gx gy : List (List ℚ)) (r c : ℕ) : ℚ :=
  gridGet gx r c ^ 2 + gridGet gy r c ^ 2

/-- Squared maximum gradient magnitude, gradient_mag.max() ^ 2.  The fold
default 0 is never the maximum of a nonempty grid since squares are
nonnegative. -/
def maxMagSq (gx gy : List (List ℚ)) : ℚ :=
  ((allIdx (numRows gx) (numCols gx)).map (fun p => magSq gx gy p.1 p.2)).foldr max 0

/-- The pixels selected by scipy.where(gradient_mag > scale * gradient_mag.max()),
in row-major order.  For scale >= 0 (the documented contract is scale in
[0, 1]) the comparison mag > scale * maxmag is equivalent to the squared
comparison used here, which keeps the definition inside the rationals. -/
def qualifiers (gx gy : List (List ℚ)) (scale : ℚ) : List (ℕ × ℕ) :=
  (allIdx (numRows gx) (numCols gx)).filter
    (fun p => decide (scale ^ 2 * maxMagSq gx gy < magSq gx gy p.1 p.2))

/-- One entry of the line drawn in the abs(slope) > 1 branch:
line = around(c - slope * (i - r)), kept when 0 <= line < dim.  A non-finite
line value (from an infinite or NaN slope) fails both range tests, exactly as
the float comparisons do in the source. -/
def lineEntry1 (dim r c : ℕ) (_slope : FVal) (i : ℕ) : Option (ℤ × ℤ) :=
  match fsubq (c : ℚ) (fmulq _slope ((i : ℚ) - (r : ℚ))) with
  | FVal.fin q =>
    let col := roundHE q
    if 0 ≤ col ∧ col < (dim : ℤ) then some ((i : ℤ), col) else none
  | _ => none

/-- One entry of the line drawn in the abs(slope) <= 1 branch:
line = around(r - (1/slope) * (j - c)), kept when 0 <= line < dim. -/
def lineEntry2 (dim r c : ℕ) (islope : FVal) (j : ℕ) : Option (ℤ × ℤ) :=
  match fsubq (r : ℚ) (fmulq islope ((j : ℚ) - (c : ℚ))) with
  | FVal.fin q =>
    let row := roundHE q
    if 0 ≤ row ∧ row < (dim : ℤ) then some (row, (j : ℤ)) else none
  | _ => none

/-- The accumulator cells receiving a vote from the pixel (r, c) whose
gradient components are (gx, gy): one iteration of the voting loop of hough. -/
def lineCells (dim r c : ℕ) (gx gy : ℚ) : List (ℤ × ℤ) :=
  let slope := fdivq gy gx
  if fabsGtOne slope then (List.range dim).filterMap (lineEntry1 dim r c slope)
  else (List.range dim).filterMap (lineEntry2 dim r c (finv slope))

/-- scipy.zeros(x_deriv.shape). -/
def zerosLike (g : List (List ℚ)) : List (List ℚ) :=
  g.map (fun row => row.map (fun _ => 0))

/-- Add one vote at a cell.  The coordinates handed to bump always lie in
range; List.set leaves the grid unchanged out of range. -/
def bump (acc : List (List ℚ)) (cell : ℤ × ℤ) : List (List ℚ) :=
  let r := cell.1.toNat
  let c := cell.2.toNat
  acc.set r ((acc.getD r []).set c ((acc.getD r []).getD c 0 + 1))

/-- The voting pass of hough: draw a line for every qualifying pixel and add
it into the accumulator.  The numpy fancy-indexed increment writes each listed
cell once; the cells listed for one pixel are pairwise distinct (their swept
coordinate is), so a fold of unit bumps is the same update. -/
def voteAccum (gx gy : List (List ℚ)) (scale : ℚ) : List (List ℚ) :=
  (qualifiers gx gy scale).foldl
    (fun acc p =>
      (lineCells (numRows gx) p.1 p.2 (gridGet gx p.1 p.2) (gridGet gy p.1 p.2)).foldl
        bump acc)
    (zerosLike gx)

/-- numpy argmax over a flat list: index of the first occurrence of the
maximum. -/
def argmaxAux : List ℚ → ℕ → ℕ → ℚ → ℕ
  | [], _, b, _ => b
  | x :: xs, i, b, v => if v < x then argmaxAux xs (i + 1) i x else argmaxAux xs (i + 1) b v

/-- accumulator.argmax(): first index of the maximum in row-major (C) order. -/
def argmaxIdx : List ℚ → ℕ
  | [] => 0
  | x :: xs => argmaxAux xs 1 0 x

/-- scipy.unravel_index(accumulator.argmax(), accumulator.shape). -/
def coarsePeak (acc : List (List ℚ)) : ℕ × ℕ :=
  let k := argmaxIdx acc.flatten
  (k / numCols acc, k % numCols acc)

/-- The exceptions the hough pipeline can raise.  shapeMismatch is the
TypeError numpy.average raises when the weights array and the index grid have
different shapes; zeroDivision is its ZeroDivisionError for an all-zero weight
sum.  noQualifyingGradient is the error the specification asks for; it is
included so the specified behaviour is expressible, and the source never
produces it. -/
inductive RefineError where
  | shapeMismatch
  | zeroDivision
  | noQualifyingGradient
deriving DecidableEq, Repr

/-- Python slice endpoint resolution for a positive step: a negative endpoint
counts from the end, then both are clamped to [0, N]. -/
def pySliceIdx (N : ℕ) (a : ℤ) : ℕ :=
  let a' := if a < 0 then a + N else a
  (max 0 (min (N : ℤ) a')).toNat

/-- Python list slice l[a:b] (step 1). -/
def pySlice (a b : ℤ) (l : List α) : List α :=
  let lo := pySliceIdx l.length a
  let hi := pySliceIdx l.length b
  (l.drop lo).take (hi - lo)

/-- accumulator[m-10:m+11, n-10:n+11], the window the refinement averages
over (the window radius 10 is hard-coded in the source). -/
def window (acc : List (List ℚ)) (m n : ℕ) : List (List ℚ) :=
  (pySlice ((m : ℤ) - 10) ((m : ℤ) + 11) acc).map
    (fun row => pySlice ((n : ℤ) - 10) ((n : ℤ) + 11) row)

/-- The refinement step: numpy.mgrid[m-10:m+11, n-10:n+11] always has shape
(21, 21), while the window slice is clipped (or, through Python negative-index
wraparound, emptied) near the borders; numpy.average with axis None raises
when the two shapes differ, and raises ZeroDivisionError when the weights sum
to zero.  Otherwise it returns the weighted averages of the index grids. -/
def refineStep (acc : List (List ℚ)) (m n : ℕ) : Except RefineError (ℚ × ℚ) :=
  let small := window acc m n
  if small.length = 21 ∧ ∀ row ∈ small, row.length = 21 then
    let w : ℕ → ℕ → ℚ := fun a b => (small.getD a []).getD b 0
    let W : ℚ := (List.ofFn (fun a : Fin 21 => (List.ofFn (fun b : Fin 21 => w a b)).sum)).sum
    if W = 0 then Except.error RefineError.zeroDivision
    else
      Except.ok
        ((List.ofFn (fun a : Fin 21 =>
            (List.ofFn (fun b : Fin 21 => ((m : ℚ) - 10 + (a : ℕ)) * w a b)).sum)).sum / W,
         (List.ofFn (fun a : Fin 21 =>
            (List.ofFn (fun b : Fin 21 => ((n : ℚ) - 10 + (b : ℕ)) * w a b)).sum)).sum / W)
  else Except.error RefineError.shapeMismatch

/-- hough(x_deriv, y_deriv, scale): vote, take the accumulator argmax, refine,
and return the refined centre together with the accumulator. -/
def hough (xDeriv yDeriv : List (List ℚ)) (scale : ℚ) :
    Except RefineError ((ℚ × ℚ) × List (List ℚ)) :=
  let acc := voteAccum xDeriv yDeriv scale
  let p := coarsePeak acc
  (refineStep acc p.1 p.2).map (fun rc => (rc, acc))

/-- Boundary index for the radius-1 correlations of the Sobel filter under
scipy's default reflect mode (d c b a | a b c d). -/
def reflIdx (N : ℕ) (i : ℤ) : ℕ :=
  if i < 0 then (-(i + 1)).toNat
  else if (N : ℤ) ≤ i then ((2 * N : ℤ) - 1 - i).toNat
  else i.toNat

/-- Build an R x C grid from an entry function. -/
def mkGrid (R C : ℕ) (f : ℕ → ℕ → ℚ) : List (List ℚ) :=
  (List.range R).map (fun i => (List.range C).map (fun j => f i j))

/-- scipy.ndimage.sobel(image, axis = 0): derivative correlation [-1, 0, 1]
along the rows, smoothing correlation [1, 2, 1] along the columns, reflect
boundary. -/
def sobel0 (img : List (List ℚ)) : List (List ℚ) :=
  let R := numRows img
  let C := numCols img
  let d : ℕ → ℕ → ℚ := fun i j =>
    gridGet img (reflIdx R ((i : ℤ) + 1)) j - gridGet img (reflIdx R ((i : ℤ) - 1)) j
  mkGrid R C (fun i j => d i (reflIdx C ((j : ℤ) - 1)) + 2 * d i j + d i (reflIdx C ((j : ℤ) + 1)))

/-- scipy.ndimage.sobel(image, axis = 1): derivative along the columns,
smoothing along the rows. -/
def sobel1 (img : List (List ℚ)) : List (List ℚ) :=
  let R := numRows img
  let C := numCols img
  let d : ℕ → ℕ → ℚ := fun i j =>
    gridGet img i (reflIdx C ((j : ℤ) + 1)) - gridGet img i (reflIdx C ((j : ℤ) - 1))
  mkGrid R C (fun i j => d (reflIdx R ((i : ℤ) - 1)) j + 2 * d i j + d (reflIdx R ((i : ℤ) + 1)) j)

/-- image_gradient(image): the source applies sobel without any shape
validation and negates the axis-1 result. -/
def image_gradient (img : List (List ℚ)) : List (List ℚ) × List (List ℚ) :=
  (sobel0 img, (sobel1 img).map (fun row => row.map (fun x => -x)))

/-- center_find(image, scale): the full pipeline, returning only the refined
centre. -/
def center_find (img : List (List ℚ)) (scale : ℚ) : Except RefineError (ℚ × ℚ) :=
  (hough (image_gradient img).1 (image_gradient img).2 scale).map (fun p => p.1)

/-! Concrete inputs used by the counterexamples and witnesses. -/

/-- An all-zero 5 x 5 gradient grid: what a constant-intensity image produces. -/
def flatG : List (List ℚ) := List.replicate 5 (List.replicate 5 0)

/-- A 4 x 4 zero grid. -/
def zGrid4 : List (List ℚ) := List.replicate 4 (List.replicate 4 0)

/-- Row-gradient grid whose only nonzero entry is gx = 3 at pixel (1, 2):
that pixel has slope 0. -/
def slopeZeroGx : List (List ℚ) := [[0, 0, 0, 0], [0, 0, 3, 0], [0, 0, 0, 0], [0, 0, 0, 0]]

/-- Column-gradient grid whose only nonzero entry is gy = 5 at pixel (1, 2):
that pixel has gx = 0 (a vertical gradient). -/
def vertGy : List (List ℚ) := [[0, 0, 0, 0], [0, 0, 5, 0], [0, 0, 0, 0], [0, 0, 0, 0]]

/-- A 3 x 3 accumulator whose single vote sits at the corner (0, 0). -/
def borderAccA : List (List ℚ) := [[1, 0, 0], [0, 0, 0], [0, 0, 0]]

/-- A 3 x 3 accumulator whose single vote sits at the corner (2, 2). -/
def borderAccB : List (List ℚ) := [[0, 0, 0], [0, 0, 0], [0, 0, 1]]

/-- A 21 x 21 accumulator with a single vote at the interior point (10, 10). -/
def peakAcc : List (List ℚ) :=
  (List.replicate 21 (List.replicate 21 (0 : ℚ))).set 10 ((List.replicate 21 (0 : ℚ)).set 10 1)

/-- Gradient grids for the threshold-monotonicity witness. -/
def monoGx : List (List ℚ) := [[1, 0], [0, 0]]

/-- Second gradient grid for the threshold-monotonicity witness. -/
def monoGy : List (List ℚ) := [[0, 2], [0, 0]]

/-- A 2 x 2 accumulator with a tie between cells (0, 1) and (1, 0). -/
def tieAcc : List (List ℚ) := [[0, 1], [1, 0]]

deriving instance DecidableEq for Except

/-! ### Helper lemmas about lists, folds and the argmax scan -/

theorem getD_set_eq_if {α : Type} (l : List α) (i j : ℕ) (a d : α) :
    (l.set i a).getD j d = if i = j ∧ j < l.length then a else l.getD j d := by
  rw [List.getD_eq_getElem?_getD, List.getD_eq_getElem?_getD, List.getElem?_set]
  by_cases hij : i = j
  · subst hij
    by_cases hi : i < l.length
    · simp [hi]
    · simp only [hi, if_false, if_true, and_false]
      rw [List.getElem?_eq_none (by omega)]
  · simp [hij]

theorem le_foldr_max {x : ℚ} {l : List ℚ} (hx : x ∈ l) : x ≤ l.foldr max 0 := by
  induction l with
  | nil => cases hx
  | cons a l ih =>
    rcases List.mem_cons.mp hx with h | h
    · subst h; exact le_max_left _ _
    · exact le_trans (ih h) (le_max_right _ _)

theorem foldr_max_nonneg (l : List ℚ) : 0 ≤ l.foldr max 0 := by
  induction l with
  | nil => exact le_refl 0
  | cons a l ih => exact le_trans ih (le_max_right _ _)

theorem argmaxAux_spec (l : List ℚ) : ∀ (i b : ℕ) (v : ℚ),
    (argmaxAux l i b v = b ∧ ∀ k, k < l.length → l.getD k 0 ≤ v) ∨
    (∃ k, k < l.length ∧ argmaxAux l i b v = i + k ∧ v < l.getD k 0 ∧
      (∀ j, j < k → l.getD j 0 < l.getD k 0) ∧
      (∀ j, j < l.length → l.getD j 0 ≤ l.getD k 0)) := by
  induction l with
  | nil =>
    intro i b v
    left
    exact ⟨rfl, fun k hk => absurd hk (Nat.not_lt_zero k)⟩
  | cons x xs ih =>
    intro i b v
    by_cases hvx : v < x
    · rcases ih (i + 1) i x with ⟨heq, hle⟩ | ⟨k, hk, heq, hlt, hstr, hle⟩
      · right
        refine ⟨0, Nat.succ_pos _, ?_, ?_, ?_, ?_⟩
        · simpa [argmaxAux, hvx] using heq
        · simpa using hvx
        · intro j hj; exact absurd hj (Nat.not_lt_zero j)
        · intro j hj
          cases j with
          | zero => simp
          | succ j => simpa using hle j (Nat.lt_of_succ_lt_succ hj)
      · right
        refine ⟨k + 1, Nat.succ_lt_succ hk, ?_, ?_, ?_, ?_⟩
        · have : argmaxAux (x :: xs) i b v = argmaxAux xs (i + 1) i x := by
            simp [argmaxAux, hvx]
          rw [this, heq]; omega
        · rw [List.getD_cons_succ]; exact lt_trans hvx hlt
        · intro j hj
          cases j with
          | zero => simpa using hlt
          | succ j => simpa using hstr j (Nat.lt_of_succ_lt_succ hj)
        · intro j hj
          cases j with
          | zero => simpa using le_of_lt hlt
          | succ j => simpa using hle j (Nat.lt_of_succ_lt_succ hj)
    · rcases ih (i + 1) b v with ⟨heq, hle⟩ | ⟨k, hk, heq, hlt, hstr, hle⟩
      · left
        refine ⟨by simpa [argmaxAux, hvx] using heq, ?_⟩
        intro k hk
        cases k with
        | zero => simpa using not_lt.mp hvx
        | succ k => simpa using hle k (Nat.lt_of_succ_lt_succ hk)
      · right
        refine ⟨k + 1, Nat.succ_lt_succ hk, ?_, ?_, ?_, ?_⟩
        · have : argmaxAux (x :: xs) i b v = argmaxAux xs (i + 1) b v := by
            simp [argmaxAux, hvx]
          rw [this, heq]; omega
        · rw [List.getD_cons_succ]; exact hlt
        · intro j hj
          cases j with
          | zero => simpa using lt_of_le_of_lt (not_lt.mp hvx) hlt
          | succ j => simpa using hstr j (Nat.lt_of_succ_lt_succ hj)
        · intro j hj
          cases j with
          | zero => simpa using le_trans (not_lt.mp hvx) (le_of_lt hlt)
          | succ j => simpa using hle j (Nat.lt_of_succ_lt_succ hj)

theorem argmaxIdx_lt_length {l : List ℚ} (hl : l ≠ []) : argmaxIdx l < l.length := by
  cases l with
  | nil => exact absurd rfl hl
  | cons x xs =>
    show argmaxAux xs 1 0 x < xs.length + 1
    rcases argmaxAux_spec xs 1 0 x with ⟨heq, _⟩ | ⟨k, hk, heq, _⟩
    · omega
    · omega

theorem getD_le_argmaxIdx (l : List ℚ) (k : ℕ) (hk : k < l.length) :
    l.getD k 0 ≤ l.getD (argmaxIdx l) 0 := by
  cases l with
  | nil => simp at hk
  | cons x xs =>
    show (x :: xs).getD k 0 ≤ (x :: xs).getD (argmaxAux xs 1 0 x) 0
    rcases argmaxAux_spec xs 1 0 x with ⟨heq, hle⟩ | ⟨k', hk', heq, hlt, _, hle⟩
    · rw [heq, List.getD_cons_zero]
      cases k with
      | zero => simp
      | succ k => simpa using hle k (by simpa using hk)
    · have h1k : argmaxAux xs 1 0 x = k' + 1 := by omega
      rw [h1k, List.getD_cons_succ]
      cases k with
      | zero => simpa using le_of_lt hlt
      | succ k => simpa using hle k (by simpa using hk)

theorem argmaxIdx_first (l : List ℚ) (j : ℕ) (hj : j < argmaxIdx l) :
    l.getD j 0 < l.getD (argmaxIdx l) 0 := by
  cases l with
  | nil => simp [argmaxIdx] at hj
  | cons x xs =>
    have hj' : j < argmaxAux xs 1 0 x := hj
    show (x :: xs).getD j 0 < (x :: xs).getD (argmaxAux xs 1 0 x) 0
    rcases argmaxAux_spec xs 1 0 x with ⟨heq, _⟩ | ⟨k', _, heq, hlt, hstr, _⟩
    · rw [heq] at hj'; exact absurd hj' (Nat.not_lt_zero j)
    · have h1k : argmaxAux xs 1 0 x = k' + 1 := by omega
      rw [h1k, List.getD_cons_succ]
      have hjk : j < k' + 1 := by omega
      cases j with
      | zero => simpa using hlt
      | succ j => simpa using hstr j (Nat.lt_of_succ_lt_succ hjk)

/-! ### Claims C10 and C8: the qualifying set as a function of scale -/

/-- Claim C10 (confirmed): qualification demands squared magnitude strictly
above scale ^ 2 times the squared maximum, so at scale = 1 the maximum pixel
itself fails the strict comparison and no pixel qualifies for any input; the
vote set is empty and the accumulator is the zero grid. -/
theorem scale_one_no_qualifiers (gx gy : List (List ℚ)) :
    qualifiers gx gy 1 = [] ∧ voteAccum gx gy 1 = zerosLike gx := by
  have hq : qualifiers gx gy 1 = [] := by
    apply List.filter_eq_nil.mpr
    intro p hp
    simp only [decide_eq_true_eq, not_lt, one_pow, one_mul]
    exact le_foldr_max (List.mem_map_of_mem _ hp)
  refine ⟨hq, ?_⟩
  rw [voteAccum, hq, List.foldl_nil]

/-- Claim C8 (confirmed): for 0 <= s1 <= s2 (the contract restricts scale to
[0, 1]) every pixel qualifying at s2 also qualifies at s1: the qualifying list
at s2 is a sublist of the one at s1, hence a subset, and its length can only
be smaller. -/
theorem qualifiers_antitone (gx gy : List (List ℚ)) (s1 s2 : ℚ)
    (h0 : 0 ≤ s1) (h12 : s1 ≤ s2) (_h21 : s2 ≤ 1) :
    (qualifiers gx gy s2).Sublist (qualifiers gx gy s1) ∧
    (∀ p ∈ qualifiers gx gy s2, p ∈ qualifiers gx gy s1) ∧
    (qualifiers gx gy s2).length ≤ (qualifiers gx gy s1).length := by
  have hsub : (qualifiers gx gy s2).Sublist (qualifiers gx gy s1) := by
    unfold qualifiers
    apply List.monotone_filter_right
    intro p hp
    rw [decide_eq_true_eq] at hp ⊢
    have hM : 0 ≤ maxMagSq gx gy := foldr_max_nonneg _
    have hpow : s1 ^ 2 ≤ s2 ^ 2 := pow_le_pow_left₀ h0 h12 2
    exact lt_of_le_of_lt (mul_le_mul_of_nonneg_right hpow hM) hp
  exact ⟨hsub, fun p hp => hsub.subset hp, hsub.length_le⟩

/-- Witness for C8 at a concrete input: with gradients monoGx, monoGy the
qualifying list at scale 3/4 is a sublist of the one at scale 1/4. -/
theorem qualifiers_antitone_witness :
    (qualifiers monoGx monoGy (3/4)).Sublist (qualifiers monoGx monoGy (1/4)) :=
  (qualifiers_antitone monoGx monoGy (1/4) (3/4) (by norm_num) (by norm_num)
    (by norm_num)).1

/-! ### Claim C1: behaviour of hough on an all-zero gradient field -/

theorem getD_replicate_eq_if {α : Type} (n i : ℕ) (a d : α) :
    (List.replicate n a).getD i d = if i < n then a else d := by
  rw [List.getD_eq_getElem?_getD, List.getElem?_replicate]
  by_cases h : i < n <;> simp [h]

theorem gridGet_flatG (r c : ℕ) : gridGet flatG r c = 0 := by
  unfold gridGet flatG
  rw [getD_replicate_eq_if]
  by_cases hr : r < 5
  · simp only [hr, if_true]
    rw [getD_replicate_eq_if]
    by_cases hc : c < 5 <;> simp [hc]
  · simp [hr]

theorem qualifiers_flatG (scale : ℚ) : qualifiers flatG flatG scale = [] := by
  have hmax : maxMagSq flatG flatG = 0 := of_decide_eq_true (by with_unfolding_all rfl)
  apply List.filter_eq_nil.mpr
  intro p _
  simp only [decide_eq_true_eq, not_lt, hmax, mul_zero, magSq, gridGet_flatG]
  norm_num

/-- Claim C1 (corrected): on an all-zero gradient field no pixel qualifies,
for every scale (not only scale in (0, 1]): the threshold is scale * 0 = 0 and
no squared magnitude exceeds it.  The accumulator stays all-zero, the argmax
defaults to the corner (0, 0), and the refinement then faults with the window
shape mismatch.  So hough does fail rather than return a degenerate
coordinate, but with an undistinguished fault, not a NoQualifyingGradient
error. -/
theorem hough_flat_faults (scale : ℚ) :
    qualifiers flatG flatG scale = [] ∧
    hough flatG flatG scale = Except.error RefineError.shapeMismatch := by
  refine ⟨qualifiers_flatG scale, ?_⟩
  have hacc : voteAccum flatG flatG scale = zerosLike flatG := by
    rw [voteAccum, qualifiers_flatG, List.foldl_nil]
  simp only [hough, hacc]
  exact of_decide_eq_true (by with_unfolding_all rfl)

/-- Counterexample for C1: at the concrete flat input with scale 1/2 the
pipeline raises the shape-mismatch fault, which is not the distinguishable
NoQualifyingGradient error the claim requires. -/
theorem hough_flat_error_not_distinguished :
    hough flatG flatG (1/2) = Except.error RefineError.shapeMismatch ∧
    (Except.error RefineError.shapeMismatch :
        Except RefineError ((ℚ × ℚ) × List (List ℚ))) ≠
      Except.error RefineError.noQualifyingGradient :=
  ⟨of_decide_eq_true (by with_unfolding_all rfl),
   of_decide_eq_true (by with_unfolding_all rfl)⟩

/-! ### Claim C2: refinement at a border peak -/

/-- Claim C2 (code bug): when the coarse peak sits at a corner of the
accumulator the 21 x 21 index grids and the clipped/wrapped window slice have
different shapes, and the averaging step faults (numpy TypeError) instead of
clipping or padding.  Shown at both corners (0, 0) and (N-1, N-1) of a 3 x 3
accumulator holding a single vote. -/
theorem refine_border_peak_faults :
    coarsePeak borderAccA = (0, 0) ∧
    refineStep borderAccA 0 0 = Except.error RefineError.shapeMismatch ∧
    coarsePeak borderAccB = (2, 2) ∧
    refineStep borderAccB 2 2 = Except.error RefineError.shapeMismatch :=
  ⟨of_decide_eq_true (by with_unfolding_all rfl),
   of_decide_eq_true (by with_unfolding_all rfl),
   of_decide_eq_true (by with_unfolding_all rfl),
   of_decide_eq_true (by with_unfolding_all rfl)⟩

/-! ### Claim C3: a qualifying pixel with gx = 0 -/

/-- Claim C3 (code bug): the pixel (1, 2) with gradient (gx, gy) = (0, 5)
qualifies at scale 1/2, its slope is the float infinity 5 / 0, every line
position it generates is non-finite and is filtered out by the range tests,
so the pixel casts no votes at all and the accumulator stays zero — the
source neither faults nor votes down column 2 as the specification demands. -/
theorem vertical_gradient_pixel_votes_nothing :
    qualifiers zGrid4 vertGy (1/2) = [(1, 2)] ∧
    lineCells 4 1 2 0 5 = [] ∧
    voteAccum zGrid4 vertGy (1/2) = zerosLike zGrid4 :=
  ⟨of_decide_eq_true (by with_unfolding_all rfl),
   of_decide_eq_true (by with_unfolding_all rfl),
   of_decide_eq_true (by with_unfolding_all rfl)⟩

/-! ### Claim C4: gradient computation on degenerate shapes -/

/-- Counterexample for C4: image_gradient performs no shape validation; on
the 1-row image [[1, 2, 3]] and the 1-column image [[1], [2], [3]] it returns
ordinary gradient grids instead of raising an InvalidImageShape error. -/
theorem image_gradient_small_images_return_grids :
    image_gradient [[1, 2, 3]] = ([[0, 0, 0]], [[-4, -8, -4]]) ∧
    image_gradient [[1], [2], [3]] = ([[4], [8], [4]], [[0], [0], [0]]) :=
  ⟨of_decide_eq_true (by with_unfolding_all rfl),
   of_decide_eq_true (by with_unfolding_all rfl)⟩

set_option maxHeartbeats 1000000 in
/-- Claim C4 (corrected): for every 1-row image of width 3 the source returns
gradient grids of the same shape: the row-direction Sobel derivative is zero
(the reflect boundary makes both neighbours of the single row the row itself)
and the column-direction gradient is minus four times the column differences. -/
theorem image_gradient_one_row (a b c : ℚ) :
    image_gradient [[a, b, c]] =
      ([[0, 0, 0]], [[4 * (a - b), 4 * (a - c), 4 * (b - c)]]) := by
  show (sobel0 [[a, b, c]], (sobel1 [[a, b, c]]).map _) = _
  have htn : ((2 : ℤ).toNat : ℕ) = 2 := rfl
  have h0 : sobel0 [[a, b, c]] = [[0, 0, 0]] := by
    simp only [sobel0, numRows, numCols, List.length_cons, List.length_nil, List.headD_cons]
    norm_num [mkGrid, List.range_succ, gridGet, reflIdx, htn]
  have h1 : sobel1 [[a, b, c]] = [[4 * (b - a), 4 * (c - a), 4 * (c - b)]] := by
    simp only [sobel1, numRows, numCols, List.length_cons, List.length_nil, List.headD_cons]
    norm_num [mkGrid, List.range_succ, gridGet, reflIdx, htn]
    refine ⟨by ring, by ring, by ring⟩
  rw [h0, h1]
  norm_num
  refine ⟨by ring, by ring, by ring⟩

/-! ### Claim C9: accumulator shape, nonnegativity and in-bounds votes -/

theorem getD_mem_or_eq {α : Type} (l : List α) (r : ℕ) (d : α) :
    l.getD r d ∈ l ∨ l.getD r d = d := by
  by_cases hr : r < l.length
  · left
    rw [List.getD_eq_getElem?_getD, List.getElem?_eq_getElem hr]
    exact List.getElem_mem hr
  · right
    rw [List.getD_eq_getElem?_getD, List.getElem?_eq_none (by omega)]
    rfl

theorem foldl_preserve {α β : Type} (P : α → Prop) (f : α → β → α)
    (hf : ∀ a b, P a → P (f a b)) : ∀ (l : List β) (a : α), P a → P (l.foldl f a) := by
  intro l
  induction l with
  | nil => intro a ha; exact ha
  | cons b l ih => intro a ha; exact ih (f a b) (hf a b ha)

/-- The invariant carried through the voting fold: same row count as gx, the
same length on every row, and only nonnegative entries. -/
def AccInv (gx : List (List ℚ)) (acc : List (List ℚ)) : Prop :=
  acc.length = gx.length ∧
  (∀ r : ℕ, (acc.getD r []).length = (gx.getD r []).length) ∧
  (∀ row ∈ acc, ∀ x ∈ row, (0 : ℚ) ≤ x)

theorem accInv_zerosLike (gx : List (List ℚ)) : AccInv gx (zerosLike gx) := by
  refine ⟨List.length_map _ _, ?_, ?_⟩
  · intro r
    unfold zerosLike
    rw [List.getD_eq_getElem?_getD, List.getElem?_map, List.getD_eq_getElem?_getD]
    cases h : gx[r]? with
    | none => rfl
    | some row => simp [List.length_map]
  · intro row hrow x hx
    rcases List.mem_map.mp hrow with ⟨row0, _, hrow0⟩
    rcases List.mem_map.mp (hrow0 ▸ hx) with ⟨y, _, hy⟩
    rw [← hy]

theorem accInv_bump (gx : List (List ℚ)) (acc : List (List ℚ)) (cell : ℤ × ℤ)
    (h : AccInv gx acc) : AccInv gx (bump acc cell) := by
  obtain ⟨hlen, hrows, hpos⟩ := h
  have hv : ∀ (R C : ℕ), (0 : ℚ) ≤ (acc.getD R []).getD C 0 := by
    intro R C
    rcases getD_mem_or_eq (acc.getD R []) C 0 with hm | he
    · rcases getD_mem_or_eq acc R [] with hma | hea
      · exact hpos _ hma _ hm
      · rw [hea] at hm; cases hm
    · rw [he]
  simp only [bump]
  refine ⟨?_, ?_, ?_⟩
  · rw [List.length_set]; exact hlen
  · intro r
    rw [getD_set_eq_if]
    by_cases hcond : cell.1.toNat = r ∧ r < acc.length
    · rw [if_pos hcond, List.length_set, hcond.1]
      exact hrows r
    · rw [if_neg hcond]
      exact hrows r
  · intro row hrow x hx
    rcases List.mem_or_eq_of_mem_set hrow with hm | he
    · exact hpos _ hm _ hx
    · rw [he] at hx
      rcases List.mem_or_eq_of_mem_set hx with hxm | hxe
      · rcases getD_mem_or_eq acc cell.1.toNat [] with hma | hea
        · exact hpos _ hma _ hxm
        · rw [hea] at hxm; cases hxm
      · rw [hxe]
        have := hv cell.1.toNat cell.2.toNat
        linarith

theorem accInv_voteAccum (gx gy : List (List ℚ)) (scale : ℚ) :
    AccInv gx (voteAccum gx gy scale) := by
  unfold voteAccum
  apply foldl_preserve (AccInv gx)
  · intro acc p hacc
    exact foldl_preserve (AccInv gx) bump (fun a b ha => accInv_bump gx a b ha) _ acc hacc
  · exact accInv_zerosLike gx

theorem lineCells_bounds (dim r c : ℕ) (g1 g2 : ℚ) (p : ℤ × ℤ)
    (hp : p ∈ lineCells dim r c g1 g2) :
    0 ≤ p.1 ∧ p.1 < (dim : ℤ) ∧ 0 ≤ p.2 ∧ p.2 < (dim : ℤ) := by
  unfold lineCells at hp
  by_cases hb : fabsGtOne (fdivq g2 g1)
  · rw [if_pos hb] at hp
    rcases List.mem_filterMap.mp hp with ⟨i, hi, hentry⟩
    have hidim : i < dim := List.mem_range.mp hi
    simp only [lineEntry1] at hentry
    split at hentry
    · split_ifs at hentry with hcond
      · injection hentry with h
        rw [← h]
        refine ⟨?_, ?_, hcond.1, hcond.2⟩
        · show (0 : ℤ) ≤ (i : ℤ)
          exact Int.natCast_nonneg i
        · show (i : ℤ) < (dim : ℤ)
          exact_mod_cast hidim
    · cases hentry
  · rw [if_neg hb] at hp
    rcases List.mem_filterMap.mp hp with ⟨j, hj, hentry⟩
    have hjdim : j < dim := List.mem_range.mp hj
    simp only [lineEntry2] at hentry
    split at hentry
    · split_ifs at hentry with hcond
      · injection hentry with h
        rw [← h]
        refine ⟨hcond.1, hcond.2, ?_, ?_⟩
        · show (0 : ℤ) ≤ (j : ℤ)
          exact Int.natCast_nonneg j
        · show (j : ℤ) < (dim : ℤ)
          exact_mod_cast hjdim
    · cases hentry

/-- Claim C9 (confirmed): the accumulator produced by voting has exactly the
shape of the gradient grid (same row count, same length on every row), all of
its entries are nonnegative, and every vote produced by a line trace lies
inside [0, dim) in both coordinates — out-of-range line positions are
filtered out before any write. -/
theorem accumulator_shape_and_bounds (gx gy : List (List ℚ)) (scale : ℚ) :
    (voteAccum gx gy scale).length = gx.length ∧
    (∀ r : ℕ, ((voteAccum gx gy scale).getD r []).length = (gx.getD r []).length) ∧
    (∀ row ∈ voteAccum gx gy scale, ∀ x ∈ row, (0 : ℚ) ≤ x) ∧
    (∀ (dim r c : ℕ) (g1 g2 : ℚ) (p : ℤ × ℤ), p ∈ lineCells dim r c g1 g2 →
      0 ≤ p.1 ∧ p.1 < (dim : ℤ) ∧ 0 ≤ p.2 ∧ p.2 < (dim : ℤ)) := by
  obtain ⟨h1, h2, h3⟩ := accInv_voteAccum gx gy scale
  exact ⟨h1, h2, h3, fun dim r c g1 g2 p hp => lineCells_bounds dim r c g1 g2 p hp⟩

/-- Witness for C9: the vote (1, 2) of the concrete pixel (1, 2) with gradient
(1, 2) on a 4 x 4 grid lies inside the bounds, via the theorem. -/
theorem accumulator_shape_witness :
    0 ≤ ((1 : ℤ), (2 : ℤ)).1 ∧ ((1 : ℤ), (2 : ℤ)).1 < ((4 : ℕ) : ℤ) ∧
    0 ≤ ((1 : ℤ), (2 : ℤ)).2 ∧ ((1 : ℤ), (2 : ℤ)).2 < ((4 : ℕ) : ℤ) :=
  (accumulator_shape_and_bounds monoGx monoGy 1).2.2.2 4 1 2 1 2 ((1 : ℤ), (2 : ℤ))
    (of_decide_eq_true (by with_unfolding_all rfl))

/-! ### Claim C5: the cells a qualifying pixel votes for -/

theorem lineEntry1_fin (dim r c : ℕ) (s : ℚ) (i : ℕ) :
    lineEntry1 dim r c (FVal.fin s) i =
      (if 0 ≤ roundHE ((c : ℚ) - s * ((i : ℚ) - (r : ℚ))) ∧
          roundHE ((c : ℚ) - s * ((i : ℚ) - (r : ℚ))) < (dim : ℤ)
       then some ((i : ℤ), roundHE ((c : ℚ) - s * ((i : ℚ) - (r : ℚ)))) else none) := by
  simp [lineEntry1, fmulq, fsubq]

theorem lineEntry2_fin (dim r c : ℕ) (t : ℚ) (j : ℕ) :
    lineEntry2 dim r c (FVal.fin t) j =
      (if 0 ≤ roundHE ((r : ℚ) - t * ((j : ℚ) - (c : ℚ))) ∧
          roundHE ((r : ℚ) - t * ((j : ℚ) - (c : ℚ))) < (dim : ℤ)
       then some (roundHE ((r : ℚ) - t * ((j : ℚ) - (c : ℚ))), (j : ℤ)) else none) := by
  simp [lineEntry2, fmulq, fsubq]

theorem lineEntry1_fst {dim r c : ℕ} {sl : FVal} {i : ℕ} {p : ℤ × ℤ}
    (h : lineEntry1 dim r c sl i = some p) : p.1 = (i : ℤ) := by
  simp only [lineEntry1] at h
  split at h
  · split_ifs at h
    injection h with h'
    rw [← h']
  · cases h

theorem lineEntry2_snd {dim r c : ℕ} {sl : FVal} {j : ℕ} {p : ℤ × ℤ}
    (h : lineEntry2 dim r c sl j = some p) : p.2 = (j : ℤ) := by
  simp only [lineEntry2] at h
  split at h
  · split_ifs at h
    injection h with h'
    rw [← h']
  · cases h

theorem lineCells_nodup (dim r c : ℕ) (gx gy : ℚ) : (lineCells dim r c gx gy).Nodup := by
  simp only [lineCells]
  split_ifs with hb
  · refine List.Nodup.filterMap ?_ (List.nodup_range dim)
    intro a a' b hba hba'
    have h1 := lineEntry1_fst (Option.mem_def.mp hba)
    have h2 := lineEntry1_fst (Option.mem_def.mp hba')
    exact_mod_cast h1 ▸ h2
  · refine List.Nodup.filterMap ?_ (List.nodup_range dim)
    intro a a' b hba hba'
    have h1 := lineEntry2_snd (Option.mem_def.mp hba)
    have h2 := lineEntry2_snd (Option.mem_def.mp hba')
    exact_mod_cast h1 ▸ h2

/-- Claim C5 (corrected; the amendment restricts it to pixels with gy not 0,
i.e. slope not 0): for a pixel with gx and gy both nonzero and slope = gy/gx,
in the steep branch (|slope| > 1) a vote (i, col) exists exactly when i is in
[0, dim) and col = around(c - slope*(i - r)) lies in [0, dim); in the shallow
branch (|slope| <= 1, and 1/slope = gx/gy exactly) a vote (row, j) exists
exactly when j is in [0, dim) and row = around(r - (gx/gy)*(j - c)) lies in
[0, dim); and the listed cells are pairwise distinct, so every touched
in-bounds cell receives exactly one vote from this pixel. -/
theorem line_votes_spec (dim r c : ℕ) (gx gy : ℚ) (hx : gx ≠ 0) (hy : gy ≠ 0) :
    (1 < |gy / gx| →
      ∀ i col : ℤ, ((i, col) ∈ lineCells dim r c gx gy ↔
        0 ≤ i ∧ i < (dim : ℤ) ∧
          col = roundHE ((c : ℚ) - gy / gx * ((i : ℚ) - (r : ℚ))) ∧
          0 ≤ col ∧ col < (dim : ℤ))) ∧
    (|gy / gx| ≤ 1 →
      ∀ row j : ℤ, ((row, j) ∈ lineCells dim r c gx gy ↔
        0 ≤ j ∧ j < (dim : ℤ) ∧
          row = roundHE ((r : ℚ) - gx / gy * ((j : ℚ) - (c : ℚ))) ∧
          0 ≤ row ∧ row < (dim : ℤ))) ∧
    (lineCells dim r c gx gy).Nodup := by
  have hslope : fdivq gy gx = FVal.fin (gy / gx) := by simp [fdivq, hx]
  have hs0 : gy / gx ≠ 0 := div_ne_zero hy hx
  refine ⟨?_, ?_, lineCells_nodup dim r c gx gy⟩
  · intro h1 i col
    have hcells : lineCells dim r c gx gy =
        (List.range dim).filterMap (lineEntry1 dim r c (FVal.fin (gy / gx))) := by
      simp only [lineCells, hslope]
      rw [if_pos]
      simp only [fabsGtOne, decide_eq_true_eq]
      exact h1
    rw [hcells]
    constructor
    · intro hmem
      rcases List.mem_filterMap.mp hmem with ⟨i', hi', hentry⟩
      rw [lineEntry1_fin] at hentry
      split_ifs at hentry with hcond
      injection hentry with hpair
      rw [Prod.mk.injEq] at hpair
      obtain ⟨hfst, hsnd⟩ := hpair
      subst hfst
      refine ⟨Int.natCast_nonneg i', by exact_mod_cast List.mem_range.mp hi', ?_,
        hsnd ▸ hcond.1, hsnd ▸ hcond.2⟩
      rw [← hsnd]
      norm_num
    · rintro ⟨hi0, hidim, hcol, hcol0, hcoldim⟩
      apply List.mem_filterMap.mpr
      have htn : ((i.toNat : ℤ)) = i := Int.toNat_of_nonneg hi0
      refine ⟨i.toNat, List.mem_range.mpr (by omega), ?_⟩
      rw [lineEntry1_fin]
      have hcast : ((i.toNat : ℕ) : ℚ) = ((i : ℤ) : ℚ) := by exact_mod_cast htn
      rw [hcast, ← hcol, if_pos ⟨hcol0, hcoldim⟩, htn]
  · intro h1 row j
    have hinv : finv (FVal.fin (gy / gx)) = FVal.fin (gx / gy) := by
      simp only [finv, if_neg hs0]
      rw [one_div_div]
    have hcells : lineCells dim r c gx gy =
        (List.range dim).filterMap (lineEntry2 dim r c (FVal.fin (gx / gy))) := by
      simp only [lineCells, hslope, hinv]
      rw [if_neg]
      simp only [fabsGtOne, decide_eq_true_eq, not_lt]
      exact h1
    rw [hcells]
    constructor
    · intro hmem
      rcases List.mem_filterMap.mp hmem with ⟨j', hj', hentry⟩
      rw [lineEntry2_fin] at hentry
      split_ifs at hentry with hcond
      injection hentry with hpair
      rw [Prod.mk.injEq] at hpair
      obtain ⟨hfst, hsnd⟩ := hpair
      subst hsnd
      refine ⟨Int.natCast_nonneg j', by exact_mod_cast List.mem_range.mp hj', ?_,
        hfst ▸ hcond.1, hfst ▸ hcond.2⟩
      rw [← hfst]
      norm_num
    · rintro ⟨hj0, hjdim, hrow, hrow0, hrowdim⟩
      apply List.mem_filterMap.mpr
      have htn : ((j.toNat : ℤ)) = j := Int.toNat_of_nonneg hj0
      refine ⟨j.toNat, List.mem_range.mpr (by omega), ?_⟩
      rw [lineEntry2_fin]
      have hcast : ((j.toNat : ℕ) : ℚ) = ((j : ℤ) : ℚ) := by exact_mod_cast htn
      rw [hcast, ← hrow, if_pos ⟨hrow0, hrowdim⟩, htn]

/-- Witness for C5 (amended): the pixel (1, 2) with gradient (1, 2), slope 2,
on a 4 x 4 grid votes at cell (1, 2), and its vote list has no duplicates. -/
theorem line_votes_witness :
    (((1 : ℤ), (2 : ℤ)) ∈ lineCells 4 1 2 1 2) ∧ (lineCells 4 1 2 1 2).Nodup := by
  have h := line_votes_spec 4 1 2 1 2 (by norm_num) (by norm_num)
  refine ⟨(h.1 (by norm_num) 1 2).mpr ?_, h.2.2⟩
  refine ⟨by norm_num, by norm_num, ?_, by norm_num, by norm_num⟩
  exact of_decide_eq_true (by with_unfolding_all rfl)

/-- Counterexample for C5 as stated: the pixel (1, 2) of the grids below has
gx = 3, gy = 0, hence slope 0, and falls in the shallow branch the claim
covers; the claim's formula (reading the division 1/slope with the rational
convention 1/0 = 0) predicts one vote at (1, j) for every column j, but the
source's float division makes 1/slope infinite, the whole trace is filtered
out, the pixel casts no votes at all, and cell (1, 0) stays at zero. -/
theorem zero_slope_pixel_votes_nothing :
    qualifiers slopeZeroGx zGrid4 (1/2) = [(1, 2)] ∧
    lineCells 4 1 2 3 0 = [] ∧
    gridGet (voteAccum slopeZeroGx zGrid4 (1/2)) 1 0 = 0 :=
  ⟨of_decide_eq_true (by with_unfolding_all rfl),
   of_decide_eq_true (by with_unfolding_all rfl),
   of_decide_eq_true (by with_unfolding_all rfl)⟩

/-! ### Claim C6: the coarse peak is the first row-major maximum -/

theorem flatten_length_rect (g : List (List ℚ)) (C : ℕ)
    (hrect : ∀ row ∈ g, row.length = C) : g.flatten.length = g.length * C := by
  induction g with
  | nil => simp
  | cons row rest ih =>
    simp only [List.flatten_cons, List.length_append, List.length_cons]
    rw [hrect row (List.mem_cons_self _ _),
      ih (fun q hq => hrect q (List.mem_cons_of_mem _ hq))]
    ring

theorem flatten_getD_rect (g : List (List ℚ)) (C : ℕ) :
    ∀ (r c : ℕ), (∀ row ∈ g, row.length = C) → c < C →
      g.flatten.getD (r * C + c) 0 = gridGet g r c := by
  induction g with
  | nil =>
    intro r c _ _
    simp [gridGet]
  | cons row rest ih =>
    intro r c hrect hc
    have hrow : row.length = C := hrect row (List.mem_cons_self _ _)
    cases r with
    | zero =>
      simp only [List.flatten_cons, Nat.zero_mul, Nat.zero_add]
      rw [List.getD_eq_getElem?_getD, List.getElem?_append,
        if_pos (show c < row.length by omega)]
      unfold gridGet
      rw [List.getD_cons_zero, List.getD_eq_getElem?_getD]
    | succ r =>
      simp only [List.flatten_cons]
      have heq : (r + 1) * C + c = row.length + (r * C + c) := by rw [hrow]; ring
      rw [heq, List.getD_eq_getElem?_getD, List.getElem?_append_right (by omega)]
      have hsub : row.length + (r * C + c) - row.length = r * C + c := by omega
      rw [hsub, ← List.getD_eq_getElem?_getD]
      unfold gridGet
      rw [List.getD_cons_succ]
      exact ih r c (fun q hq => hrect q (List.mem_cons_of_mem _ hq)) hc

theorem numCols_of_rect (acc : List (List ℚ)) (C : ℕ) (h0 : acc ≠ [])
    (hrect : ∀ row ∈ acc, row.length = C) : numCols acc = C := by
  cases acc with
  | nil => exact absurd rfl h0
  | cons row rest => exact hrect row (List.mem_cons_self _ _)

theorem coarsePeak_aux (acc : List (List ℚ)) (R C : ℕ)
    (hR : acc.length = R) (hrect : ∀ row ∈ acc, row.length = C)
    (hR0 : 0 < R) (hC0 : 0 < C) :
    (coarsePeak acc).1 < R ∧ (coarsePeak acc).2 < C ∧
    (∀ r c, r < R → c < C →
      gridGet acc r c ≤ gridGet acc (coarsePeak acc).1 (coarsePeak acc).2) ∧
    (∀ r c, r < R → c < C →
      (r < (coarsePeak acc).1 ∨ (r = (coarsePeak acc).1 ∧ c < (coarsePeak acc).2)) →
      gridGet acc r c < gridGet acc (coarsePeak acc).1 (coarsePeak acc).2) := by
  have hne0 : acc ≠ [] := by
    intro h
    rw [h] at hR
    simp at hR
    omega
  have hC : numCols acc = C := numCols_of_rect acc C hne0 hrect
  have hflatlen : acc.flatten.length = R * C := by
    rw [flatten_length_rect acc C hrect, hR]
  have hne : acc.flatten ≠ [] :=
    List.ne_nil_of_length_pos (by rw [hflatlen]; exact Nat.mul_pos hR0 hC0)
  have hklt : argmaxIdx acc.flatten < R * C := by
    rw [← hflatlen]
    exact argmaxIdx_lt_length hne
  have hm : (coarsePeak acc).1 = argmaxIdx acc.flatten / C := by
    simp [coarsePeak, hC]
  have hn : (coarsePeak acc).2 = argmaxIdx acc.flatten % C := by
    simp [coarsePeak, hC]
  have hmlt : argmaxIdx acc.flatten / C < R := by
    rw [Nat.div_lt_iff_lt_mul hC0]
    exact hklt
  have hnlt : argmaxIdx acc.flatten % C < C := Nat.mod_lt _ hC0
  have hkeq : argmaxIdx acc.flatten / C * C + argmaxIdx acc.flatten % C =
      argmaxIdx acc.flatten := by
    rw [Nat.mul_comm]
    exact Nat.div_add_mod _ C
  have hpeakval : gridGet acc (argmaxIdx acc.flatten / C) (argmaxIdx acc.flatten % C) =
      acc.flatten.getD (argmaxIdx acc.flatten) 0 := by
    rw [← flatten_getD_rect acc C _ _ hrect hnlt, hkeq]
  refine ⟨by rw [hm]; exact hmlt, by rw [hn]; exact hnlt, ?_, ?_⟩
  · intro r c hr hc
    rw [hm, hn, hpeakval, ← flatten_getD_rect acc C r c hrect hc]
    apply getD_le_argmaxIdx
    rw [hflatlen]
    calc r * C + c < r * C + C := Nat.add_lt_add_left hc _
    _ = (r + 1) * C := by ring
    _ ≤ R * C := Nat.mul_le_mul_right _ (by omega)
  · intro r c hr hc horder
    rw [hm, hn] at horder
    rw [hm, hn, hpeakval, ← flatten_getD_rect acc C r c hrect hc]
    apply argmaxIdx_first
    rcases horder with h | ⟨heq, hlt⟩
    · calc r * C + c < r * C + C := Nat.add_lt_add_left hc _
      _ = (r + 1) * C := by ring
      _ ≤ argmaxIdx acc.flatten / C * C := Nat.mul_le_mul_right _ (by omega)
      _ ≤ argmaxIdx acc.flatten := by omega
    · rw [heq]
      calc argmaxIdx acc.flatten / C * C + c
          < argmaxIdx acc.flatten / C * C + argmaxIdx acc.flatten % C :=
            Nat.add_lt_add_left hlt _
      _ = argmaxIdx acc.flatten := hkeq

/-- Claim C6 (confirmed): the coarse centre returned by the argmax/unravel
step is an in-bounds grid coordinate holding the maximum accumulator value,
and every cell strictly earlier in row-major order holds a strictly smaller
value — the first-encountered maximum wins ties. -/
theorem coarsePeak_first_rowmajor_max (acc : List (List ℚ)) (R C : ℕ)
    (hR : acc.length = R) (hrect : ∀ row ∈ acc, row.length = C)
    (hR0 : 0 < R) (hC0 : 0 < C) :
    (coarsePeak acc).1 < R ∧ (coarsePeak acc).2 < C ∧
    (∀ r c, r < R → c < C →
      gridGet acc r c ≤ gridGet acc (coarsePeak acc).1 (coarsePeak acc).2) ∧
    (∀ r c, r < R → c < C →
      (r < (coarsePeak acc).1 ∨ (r = (coarsePeak acc).1 ∧ c < (coarsePeak acc).2)) →
      gridGet acc r c < gridGet acc (coarsePeak acc).1 (coarsePeak acc).2) :=
  coarsePeak_aux acc R C hR hrect hR0 hC0

/-- Witness for C6: on the tied accumulator [[0, 1], [1, 0]] the peak is the
first maximum (0, 1) in row-major order; the theorem yields that the entry at
(1, 1) is no larger and the earlier entry (0, 0) is strictly smaller. -/
theorem coarsePeak_witness :
    gridGet tieAcc 1 1 ≤ gridGet tieAcc (coarsePeak tieAcc).1 (coarsePeak tieAcc).2 ∧
    gridGet tieAcc 0 0 < gridGet tieAcc (coarsePeak tieAcc).1 (coarsePeak tieAcc).2 := by
  have h := coarsePeak_first_rowmajor_max tieAcc 2 2 rfl
    (by
      intro row hrow
      simp only [tieAcc, List.mem_cons, List.not_mem_nil, or_false] at hrow
      rcases hrow with h | h <;> subst h <;> rfl)
    (by norm_num) (by norm_num)
  refine ⟨h.2.2.1 1 1 (by norm_num) (by norm_num),
    h.2.2.2 0 0 (by norm_num) (by norm_num) (Or.inr ⟨?_, ?_⟩)⟩
  · exact of_decide_eq_true (by with_unfolding_all rfl)
  · exact of_decide_eq_true (by with_unfolding_all rfl)

/-! ### Claim C7: interior refinement computes the weighted centroid -/

theorem gridGet_nonneg (acc : List (List ℚ))
    (hnn : ∀ row ∈ acc, ∀ x ∈ row, (0 : ℚ) ≤ x) (r c : ℕ) : 0 ≤ gridGet acc r c := by
  unfold gridGet
  rcases getD_mem_or_eq acc r [] with hma | hea
  · rcases getD_mem_or_eq (acc.getD r []) c 0 with hm | he
    · exact hnn _ hma _ hm
    · rw [he]
  · rw [hea]
    simp

theorem peak_entry_pos (acc : List (List ℚ)) (N m n : ℕ)
    (hlen : acc.length = N) (hrect : ∀ row ∈ acc, row.length = N)
    (hnn : ∀ row ∈ acc, ∀ x ∈ row, (0 : ℚ) ≤ x)
    (hpeak : coarsePeak acc = (m, n))
    (hm1 : 10 ≤ m) (hm2 : m + 11 ≤ N) :
    0 < gridGet acc m n := by
  have hN0 : 0 < N := by omega
  obtain ⟨_, _, _, hfirst⟩ := coarsePeak_aux acc N N hlen hrect hN0 hN0
  rw [hpeak] at hfirst
  have hlt := hfirst 0 0 hN0 hN0 (Or.inl (show (0 : ℕ) < m by omega))
  have hlt' : gridGet acc 0 0 < gridGet acc m n := hlt
  have h00 := gridGet_nonneg acc hnn 0 0
  linarith

theorem pySlice_interior {α : Type} (l : List α) (k t : ℕ) (hkt : k + t ≤ l.length) :
    pySlice (k : ℤ) ((k : ℤ) + (t : ℤ)) l = (l.drop k).take t := by
  simp only [pySlice, pySliceIdx]
  rw [if_neg (by omega : ¬((k : ℤ) < 0)), if_neg (by omega : ¬((k : ℤ) + (t : ℤ) < 0))]
  have e1 : (max 0 (min (l.length : ℤ) (k : ℤ))).toNat = k := by omega
  have e2 : (max 0 (min (l.length : ℤ) ((k : ℤ) + (t : ℤ)))).toNat = k + t := by omega
  rw [e1, e2]
  congr 1
  omega

theorem drop_take_getD {α : Type} (l : List α) (k t a : ℕ) (d : α) (ha : a < t) :
    ((l.drop k).take t).getD a d = l.getD (k + a) d := by
  rw [List.getD_eq_getElem?_getD, List.getElem?_take, if_pos ha, List.getElem?_drop,
    ← List.getD_eq_getElem?_getD]

theorem map_getD_of_lt {α β : Type} (f : α → β) (l : List α) (a : ℕ) (d : β) (d' : α)
    (ha : a < l.length) : (l.map f).getD a d = f (l.getD a d') := by
  rw [List.getD_eq_getElem?_getD, List.getElem?_map, List.getD_eq_getElem?_getD,
    List.getElem?_eq_getElem ha]
  simp

theorem getD_mem_of_lt {α : Type} (l : List α) (r : ℕ) (d : α) (h : r < l.length) :
    l.getD r d ∈ l := by
  rw [List.getD_eq_getElem?_getD, List.getElem?_eq_getElem h]
  exact List.getElem_mem h

theorem ofFn_double_sum (f : ℕ → ℕ → ℚ) :
    (List.ofFn (fun a : Fin 21 => (List.ofFn (fun b : Fin 21 => f a b)).sum)).sum =
      ∑ a in Finset.range 21, ∑ b in Finset.range 21, f a b := by
  simp only [List.sum_ofFn]
  calc (∑ a : Fin 21, ∑ b : Fin 21, f a b)
      = ∑ a : Fin 21, ∑ b in Finset.range 21, f a b := by
        refine Finset.sum_congr rfl ?_
        intro a _
        exact Fin.sum_univ_eq_sum_range (fun b => f a b) 21
    _ = ∑ a in Finset.range 21, ∑ b in Finset.range 21, f a b :=
        Fin.sum_univ_eq_sum_range (fun a => ∑ b in Finset.range 21, f a b) 21

/-- Claim C7 (confirmed): when the coarse peak (m, n) lies at least
window = 10 pixels from every border, the refinement succeeds and returns
exactly the intensity-weighted centroid of the row and column indices of the
21 x 21 window centred on the peak, with the accumulator values as weights. -/
theorem refine_interior_centroid (acc : List (List ℚ)) (N m n : ℕ)
    (hlen : acc.length = N) (hrect : ∀ row ∈ acc, row.length = N)
    (hnn : ∀ row ∈ acc, ∀ x ∈ row, (0 : ℚ) ≤ x)
    (hpeak : coarsePeak acc = (m, n))
    (hm1 : 10 ≤ m) (hm2 : m + 11 ≤ N) (hn1 : 10 ≤ n) (hn2 : n + 11 ≤ N) :
    refineStep acc m n = Except.ok
      ((∑ a in Finset.range 21, ∑ b in Finset.range 21,
          ((m - 10 + a : ℕ) : ℚ) * gridGet acc (m - 10 + a) (n - 10 + b)) /
        (∑ a in Finset.range 21, ∑ b in Finset.range 21,
          gridGet acc (m - 10 + a) (n - 10 + b)),
       (∑ a in Finset.range 21, ∑ b in Finset.range 21,
          ((n - 10 + b : ℕ) : ℚ) * gridGet acc (m - 10 + a) (n - 10 + b)) /
        (∑ a in Finset.range 21, ∑ b in Finset.range 21,
          gridGet acc (m - 10 + a) (n - 10 + b))) := by
  have hrows : pySlice ((m : ℤ) - 10) ((m : ℤ) + 11) acc = (acc.drop (m - 10)).take 21 := by
    have e1 : ((m : ℤ) - 10) = ((m - 10 : ℕ) : ℤ) := by omega
    have e2 : ((m : ℤ) + 11) = ((m - 10 : ℕ) : ℤ) + (21 : ℕ) := by omega
    rw [e1, e2]
    exact pySlice_interior acc (m - 10) 21 (by omega)
  have hrowslen : ((acc.drop (m - 10)).take 21).length = 21 := by
    simp only [List.length_take, List.length_drop]
    omega
  have hcolrow : ∀ row : List ℚ, row.length = N →
      pySlice ((n : ℤ) - 10) ((n : ℤ) + 11) row = (row.drop (n - 10)).take 21 := by
    intro row hlenr
    have e1 : ((n : ℤ) - 10) = ((n - 10 : ℕ) : ℤ) := by omega
    have e2 : ((n : ℤ) + 11) = ((n - 10 : ℕ) : ℤ) + (21 : ℕ) := by omega
    rw [e1, e2]
    exact pySlice_interior row (n - 10) 21 (by omega)
  have hwin : window acc m n =
      ((acc.drop (m - 10)).take 21).map (fun row => pySlice ((n : ℤ) - 10) ((n : ℤ) + 11) row) := by
    simp only [window, hrows]
  have hwinlen : (window acc m n).length = 21 := by
    rw [hwin, List.length_map, hrowslen]
  have hwinrows : ∀ row ∈ window acc m n, row.length = 21 := by
    intro row hrow
    rw [hwin] at hrow
    rcases List.mem_map.mp hrow with ⟨row0, hrow0, hfeq⟩
    have h0 : row0.length = N :=
      hrect row0 (List.drop_subset _ _ (List.take_subset _ _ hrow0))
    rw [← hfeq, hcolrow row0 h0]
    simp only [List.length_take, List.length_drop]
    omega
  have hsmall : ∀ a b : ℕ, a < 21 → b < 21 →
      ((window acc m n).getD a []).getD b 0 = gridGet acc (m - 10 + a) (n - 10 + b) := by
    intro a b ha hb
    have hidx : m - 10 + a < acc.length := by omega
    have hga : (window acc m n).getD a [] =
        pySlice ((n : ℤ) - 10) ((n : ℤ) + 11) (acc.getD (m - 10 + a) []) := by
      rw [hwin, map_getD_of_lt _ _ a [] [] (by rw [hrowslen]; exact ha),
        drop_take_getD acc (m - 10) 21 a [] ha]
    have hlenrow : (acc.getD (m - 10 + a) []).length = N :=
      hrect _ (getD_mem_of_lt acc _ [] hidx)
    rw [hga, hcolrow _ hlenrow, drop_take_getD _ (n - 10) 21 b 0 hb]
    rfl
  have hcond : (window acc m n).length = 21 ∧ ∀ row ∈ window acc m n, row.length = 21 :=
    ⟨hwinlen, hwinrows⟩
  have hcastm : ∀ a : ℕ, ((m - 10 + a : ℕ) : ℚ) = (m : ℚ) - 10 + (a : ℚ) := by
    intro a
    rw [Nat.cast_add, Nat.cast_sub hm1]
    norm_num
  have hcastn : ∀ b : ℕ, ((n - 10 + b : ℕ) : ℚ) = (n : ℚ) - 10 + (b : ℚ) := by
    intro b
    rw [Nat.cast_add, Nat.cast_sub hn1]
    norm_num
  have hWeq : (∑ a in Finset.range 21, ∑ b in Finset.range 21,
      ((window acc m n).getD a []).getD b 0) =
      ∑ a in Finset.range 21, ∑ b in Finset.range 21,
        gridGet acc (m - 10 + a) (n - 10 + b) := by
    refine Finset.sum_congr rfl ?_
    intro a ha
    refine Finset.sum_congr rfl ?_
    intro b hb
    exact hsmall a b (Finset.mem_range.mp ha) (Finset.mem_range.mp hb)
  have h1eq : (∑ a in Finset.range 21, ∑ b in Finset.range 21,
      ((m : ℚ) - 10 + (a : ℚ)) * ((window acc m n).getD a []).getD b 0) =
      ∑ a in Finset.range 21, ∑ b in Finset.range 21,
        ((m - 10 + a : ℕ) : ℚ) * gridGet acc (m - 10 + a) (n - 10 + b) := by
    refine Finset.sum_congr rfl ?_
    intro a ha
    refine Finset.sum_congr rfl ?_
    intro b hb
    rw [hsmall a b (Finset.mem_range.mp ha) (Finset.mem_range.mp hb), hcastm a]
  have h2eq : (∑ a in Finset.range 21, ∑ b in Finset.range 21,
      ((n : ℚ) - 10 + (b : ℚ)) * ((window acc m n).getD a []).getD b 0) =
      ∑ a in Finset.range 21, ∑ b in Finset.range 21,
        ((n - 10 + b : ℕ) : ℚ) * gridGet acc (m - 10 + a) (n - 10 + b) := by
    refine Finset.sum_congr rfl ?_
    intro a ha
    refine Finset.sum_congr rfl ?_
    intro b hb
    rw [hsmall a b (Finset.mem_range.mp ha) (Finset.mem_range.mp hb), hcastn b]
  have hWpos : 0 < ∑ a in Finset.range 21, ∑ b in Finset.range 21,
      gridGet acc (m - 10 + a) (n - 10 + b) := by
    have hpk := peak_entry_pos acc N m n hlen hrect hnn hpeak hm1 hm2
    have hterm : gridGet acc m n = gridGet acc (m - 10 + 10) (n - 10 + 10) := by
      congr 1 <;> omega
    calc (0 : ℚ) < gridGet acc m n := hpk
    _ = gridGet acc (m - 10 + 10) (n - 10 + 10) := hterm
    _ ≤ ∑ b in Finset.range 21, gridGet acc (m - 10 + 10) (n - 10 + b) :=
        Finset.single_le_sum (fun b _ => gridGet_nonneg acc hnn _ _)
          (Finset.mem_range.mpr (by norm_num))
    _ ≤ ∑ a in Finset.range 21, ∑ b in Finset.range 21,
          gridGet acc (m - 10 + a) (n - 10 + b) :=
        Finset.single_le_sum
          (fun a _ => Finset.sum_nonneg (fun b _ => gridGet_nonneg acc hnn _ _))
          (Finset.mem_range.mpr (by norm_num))
  simp only [refineStep]
  rw [if_pos hcond]
  rw [ofFn_double_sum (fun x y => ((window acc m n).getD x []).getD y 0),
    ofFn_double_sum (fun x y => ((m : ℚ) - 10 + (x : ℚ)) * ((window acc m n).getD x []).getD y 0),
    ofFn_double_sum (fun x y => ((n : ℚ) - 10 + (y : ℚ)) * ((window acc m n).getD x []).getD y 0)]
  rw [hWeq, h1eq, h2eq, if_neg (ne_of_gt hWpos)]

/-- Witness for C7: on the 21 x 21 accumulator with its single vote at the
interior point (10, 10) the refinement returns exactly (10, 10), via the
centroid theorem. -/
theorem refine_interior_witness : refineStep peakAcc 10 10 = Except.ok (10, 10) := by
  rw [refine_interior_centroid peakAcc 21 10 10
    (of_decide_eq_true (by with_unfolding_all rfl))
    (of_decide_eq_true (by with_unfolding_all rfl))
    (of_decide_eq_true (by with_unfolding_all rfl))
    (of_decide_eq_true (by with_unfolding_all rfl))
    (by norm_num) (by norm_num) (by norm_num) (by norm_num)]
  exact of_decide_eq_true (by with_unfolding_all rfl)

end Centerfinder
